import Mathlib

/-!
Shallow embedding of the audio-transcription pipeline in
`src/main_remote.py` (`AudioTranscriber`): file validation, chunk
splitting, per-chunk processing with temp-file cleanup, the completion
loop, reassembly, and the `transcribe_file` orchestration.

Python integer division/modulo are floor-based, so they are modelled by
`Int.fdiv` / `Int.fmod`; `range(n)` for a possibly negative `n` is
modelled by `List.range n.toNat`; Python slice indices are clamped (and
wrap when negative) as in `pyIdx`.
-/

/-- Errors raised by the pipeline.  In the Python source these are
`FileNotFoundError`, `ValueError` (unsupported format), a pydub decode
failure, `ZeroDivisionError`, an export failure, an OpenAI API failure,
and an `OSError` from `Path.unlink`. -/
inductive Err where
  | fileNotFound : Err
  | unsupportedFormat : Err
  | decodeError : Err
  | zeroDivisionError : Err
  | exportError : Err
  | serviceError : String → Err
  | cleanupError : Err
  deriving DecidableEq, Repr

/-- `supported_formats = {'.mp3', '.wav', '.m4a', '.ogg', '.flac'}` from
`validate_audio_file`. -/
def supported_formats : List String := [".mp3", ".wav", ".m4a", ".ogg", ".flac"]

/-- Python's `str.lower()`: lower-case every character. -/
def strLower (s : String) : String := ⟨s.data.map Char.toLower⟩

/-- `AudioTranscriber.validate_audio_file`: raise `FileNotFoundError` if the
path does not exist, then raise `ValueError` if `filepath.suffix.lower()`
is not in the supported set, else return `True`.  The path is abstracted
to whether it exists plus its extension string. -/
def validate_audio_file (pathExists : Bool) (ext : String) : Except Err Bool :=
  if !pathExists then
    .error .fileNotFound
  else if !(supported_formats.contains (strLower ext)) then
    .error .unsupportedFormat
  else
    .ok true

/-- A Python slice index into a sequence of length `D`: negative indices
count from the end, and the result is clamped to `[0, D]`. -/
def pyIdx (D : Nat) (x : Int) : Nat :=
  if x < 0 then (max 0 ((D : Int) + x)).toNat else min x.toNat D

/-- A Python slice `[lo:hi)` of a sequence of length `D`, as the pair of
resolved endpoints; an inverted slice is empty (`hi` clamped up to `lo`). -/
def pySlice (D : Nat) (lo hi : Int) : Nat × Nat :=
  let a := pyIdx D lo
  let b := pyIdx D hi
  (a, max a b)

/-- The chunk-count computation in `transcribe_file`:
`num_chunks = len(full_audio) // self.chunk_length_ms
            + (1 if len(full_audio) % self.chunk_length_ms > 0 else 0)`,
with `//` and `%` Python (floor) division and modulo; dividing by zero
raises `ZeroDivisionError`. -/
def numChunksE (D : Nat) (L : Int) : Except Err Int :=
  if L = 0 then .error .zeroDivisionError
  else .ok ((D : Int).fdiv L + (if 0 < (D : Int).fmod L then 1 else 0))

/-- The chunk-list computation in `transcribe_file`:
`chunks = [full_audio[i*L:(i+1)*L] for i in range(num_chunks)]`, each
chunk abstracted to its millisecond segment `[start, stop)`. -/
def splitE (D : Nat) (L : Int) : Except Err (List (Nat × Nat)) :=
  match numChunksE D L with
  | .error e => .error e
  | .ok n => .ok ((List.range n.toNat).map fun (i : Nat) => pySlice D (i * L) ((i + 1) * L))

/-- The segment of chunk `i`: the slice `full_audio[i*L:(i+1)*L]` from
the chunk list comprehension in `transcribe_file`. -/
def chunkSeg (D : Nat) (L : Int) (i : Nat) : Nat × Nat :=
  pySlice D (i * L) ((i + 1) * L)

/-- `AudioTranscriber.process_chunk`, abstracted over the outcomes of its
three effectful steps: `chunk.export` (on failure, `createdOnFail` says
whether the partial temp file hit the disk), the OpenAI transcription
call, and the `finally`-block `temp_filepath.unlink()`.  Returns the
propagated result together with whether the temp file still exists.
Per Python semantics an exception raised in the `finally` block replaces
any in-flight exception. -/
def process_chunk (exportRes : Except Err Unit) (createdOnFail : Bool)
    (serviceRes : Except Err String) (unlinkRes : Except Err Unit) :
    Except Err String × Bool :=
  let body : Except Err String × Bool :=
    match exportRes with
    | .error e => (.error e, createdOnFail)
    | .ok _ => (serviceRes, true)
  if body.2 then
    match unlinkRes with
    | .ok _ => (body.1, false)
    | .error ce => (.error ce, true)
  else
    (body.1, false)

/-- The `as_completed` loop of `transcribe_file`: walk the futures in
completion order, appending `(chunk_idx, transcription)` for each success
and re-raising the first failure encountered. -/
def collectLoop (outcomes : Nat → Except Err String) :
    List Nat → List (Nat × String) → Except Err (List (Nat × String))
  | [], acc => .ok acc
  | i :: rest, acc =>
    match outcomes i with
    | .ok t => collectLoop outcomes rest (acc ++ [(i, t)])
    | .error e => .error e

/-- `transcriptions.sort(key=lambda x: x[0])`: Python's stable sort by
chunk index, modelled by the (stable) insertion sort. -/
def sortByIndex (ts : List (Nat × String)) : List (Nat × String) :=
  List.insertionSort (fun a b => a.1 ≤ b.1) ts

/-- The reassembly step of `transcribe_file`: sort by chunk index and
`"\n".join(text for _, text in transcriptions)`. -/
def reassemble (ts : List (Nat × String)) : String :=
  String.intercalate "\n" ((sortByIndex ts).map Prod.snd)

/-- The parts of the environment `transcribe_file` observes: whether the
input path exists, its extension, the file stem, whether pydub can
decode it, and the decoded duration in milliseconds. -/
structure PipelineInput where
  pathExists : Bool
  ext : String
  stem : String
  decodeOk : Bool
  durationMs : Nat

/-- What a run of `transcribe_file` produced: the returned value or the
propagated error, whether `AudioSegment.from_file` was ever invoked, how
many `process_chunk` tasks were submitted to the executor, and the
content written to the output file (`none` if no output file was
written). -/
structure RunResult where
  result : Except Err String
  decodeAttempted : Bool
  submittedCalls : Nat
  outputContent : Option String
  deriving Repr

/-- `AudioTranscriber.transcribe_file`, abstracted over the input
environment, the configured `chunk_length_ms`, each chunk's
`process_chunk` outcome, and the order (`completionOrder`) in which
`as_completed` yields the futures.  Stages, as in the source: validate,
decode, compute chunks, submit all chunks, collect results in completion
order re-raising the first failure, sort by index and join with
newlines, then write the output file and return its path. -/
def transcribe_file (inp : PipelineInput) (chunk_length_ms : Int)
    (outcomes : Nat → Except Err String) (completionOrder : List Nat) :
    RunResult :=
  match validate_audio_file inp.pathExists inp.ext with
  | .error e => ⟨.error e, false, 0, none⟩
  | .ok _ =>
    if !inp.decodeOk then ⟨.error .decodeError, true, 0, none⟩
    else
      match splitE inp.durationMs chunk_length_ms with
      | .error e => ⟨.error e, true, 0, none⟩
      | .ok chunks =>
        match collectLoop outcomes completionOrder [] with
        | .error e => ⟨.error e, true, chunks.length, none⟩
        | .ok ts =>
          let full := reassemble ts
          ⟨.ok (inp.stem ++ ".txt"), true, chunks.length, some full⟩

/-! ## Helper lemmas -/

/-- The ceiling formula `(D + L - 1) / L` agrees with the source's
`D // L + (1 if D % L > 0 else 0)`. -/
lemma ceil_div_eq (D L : Nat) (hL : 0 < L) :
    (D + L - 1) / L = D / L + (if D % L = 0 then 0 else 1) := by
  obtain ⟨q, r, hr, rfl⟩ : ∃ q r, r < L ∧ D = L * q + r :=
    ⟨D / L, D % L, Nat.mod_lt _ hL, (Nat.div_add_mod D L).symm⟩
  have hdiv : (L * q + r) / L = q + r / L := Nat.mul_add_div hL q r
  have hmod : (L * q + r) % L = r % L := Nat.mul_add_mod L q r
  rcases Nat.eq_zero_or_pos r with rfl | hrpos
  · have h1 : L * q + 0 + L - 1 = L * q + (L - 1) := by omega
    rw [h1, Nat.mul_add_div hL, Nat.div_eq_of_lt (by omega : L - 1 < L)]
    rw [hdiv, hmod]
    simp
  · have h1 : L * q + r + L - 1 = L * q + (r + L - 1) := by omega
    rw [h1, Nat.mul_add_div hL]
    have h2 : r + L - 1 = L + (r - 1) := by omega
    rw [h2, Nat.add_div_left _ hL, Nat.div_eq_of_lt (by omega : r - 1 < L)]
    rw [hdiv, hmod, Nat.div_eq_of_lt hr, Nat.mod_eq_of_lt hr]
    rw [if_neg (by omega : ¬ r = 0)]

/-- For a positive chunk length the chunk-count computation succeeds and
returns the ceiling `⌈D / L⌉`. -/
lemma numChunksE_pos (D L : Nat) (hL : 0 < L) :
    numChunksE D (L : Int) = .ok (((D + L - 1) / L : Nat) : Int) := by
  unfold numChunksE
  rw [if_neg (show (L : Int) ≠ 0 by exact_mod_cast hL.ne')]
  congr 1
  rw [← Int.ofNat_fdiv, ← Int.ofNat_fmod, ceil_div_eq D L hL]
  by_cases h : D % L = 0
  · rw [h, if_neg (by simp), if_pos rfl]
    simp
  · rw [if_pos (by exact_mod_cast Nat.pos_of_ne_zero h), if_neg h]
    push_cast
    ring

/-- `pySlice` on already-non-negative (natural) bounds is plain clamping. -/
lemma pySlice_natCast (D a b : Nat) :
    pySlice D (a : Int) (b : Int) = (min a D, max (min a D) (min b D)) := by
  unfold pySlice pyIdx
  rw [if_neg (by omega : ¬ ((a : Int) < 0)), if_neg (by omega : ¬ ((b : Int) < 0))]
  simp

/-- `splitE` with a positive chunk length: the explicit segment list. -/
lemma splitE_pos (D L : Nat) (hL : 0 < L) :
    splitE D (L : Int) =
      .ok ((List.range ((D + L - 1) / L)).map (chunkSeg D (L : Int))) := by
  unfold splitE chunkSeg
  rw [numChunksE_pos D L hL]
  dsimp only
  rw [Int.toNat_natCast]

/-- Any index strictly below the chunk count starts strictly inside the
audio: `i < ⌈D / L⌉ → i * L < D`. -/
lemma mul_lt_of_lt_ceil (D L i : Nat) (hL : 0 < L) (hi : i < (D + L - 1) / L) :
    i * L < D := by
  have h1 : i + 1 ≤ (D + L - 1) / L := hi
  have h2 : (i + 1) * L ≤ D + L - 1 := by
    have := (Nat.le_div_iff_mul_le hL).mp h1
    exact this
  have hD : 0 < D := by
    by_contra h
    have : D = 0 := by omega
    subst this
    rw [Nat.div_eq_of_lt (by omega : 0 + L - 1 < L)] at hi
    omega
  have h3 : (i + 1) * L = i * L + L := by ring
  omega

/-- The audio is covered by `⌈D / L⌉` chunks: `D ≤ ⌈D / L⌉ * L`. -/
lemma ceil_mul_ge (D L : Nat) (hL : 0 < L) : D ≤ ((D + L - 1) / L) * L := by
  have h := Nat.div_add_mod (D + L - 1) L
  have h2 : (D + L - 1) % L < L := Nat.mod_lt _ hL
  have h3 : ((D + L - 1) / L) * L = L * ((D + L - 1) / L) := by ring
  omega

/-- The per-index segment produced by `splitE` for a positive chunk
length, in closed form. -/
lemma splitE_seg (D L i : Nat) (hL : 0 < L) (hi : i < (D + L - 1) / L) :
    chunkSeg D (L : Int) i = (i * L, min ((i + 1) * L) D) := by
  unfold chunkSeg
  have hcast1 : ((i : Int) * L) = ((i * L : Nat) : Int) := by push_cast; ring
  have hcast2 : ((i : Int) + 1) * (L : Int) = (((i + 1) * L : Nat) : Int) := by
    push_cast; ring
  rw [hcast1, hcast2, pySlice_natCast]
  have hlt : i * L < D := mul_lt_of_lt_ceil D L i hL hi
  have hmin : min (i * L) D = i * L := by omega
  rw [hmin]
  congr 1
  have : i * L ≤ (i + 1) * L := by
    have : i ≤ i + 1 := by omega
    exact Nat.mul_le_mul_right L this
  omega

/-! ## Claim theorems -/

/-- **C1**: for every non-negative total duration `D` ms and positive
chunk length `L` ms, the chunk computation in `transcribe_file` produces
exactly `⌈D / L⌉` chunks, indexed `0..N-1`, whose segments are the
contiguous, non-overlapping slices `[i·L, min((i+1)·L, D))` covering
`[0, D)`, with the last chunk's length equal to `D - (N-1)·L`. -/
theorem chunking_correct (D L : Nat) (hL : 0 < L) :
    ∃ segs : List (Nat × Nat),
      splitE D (L : Int) = .ok segs ∧
      segs.length = (D + L - 1) / L ∧
      (∀ i (h : i < segs.length), segs[i] = (i * L, min ((i + 1) * L) D)) ∧
      (∀ i (h : i + 1 < segs.length),
        segs[i].2 = segs[i + 1].1) ∧
      (∀ i j (hi : i < segs.length) (hj : j < segs.length), i < j →
        segs[i].2 ≤ segs[j].1) ∧
      (∀ x, x < D ↔ ∃ i, ∃ h : i < segs.length,
        segs[i].1 ≤ x ∧ x < segs[i].2) ∧
      (∀ h : segs ≠ [],
        (segs.getLast h).2 - (segs.getLast h).1 = D - (segs.length - 1) * L) := by
  refine ⟨(List.range ((D + L - 1) / L)).map (chunkSeg D (L : Int)),
    splitE_pos D L hL, by simp, ?_, ?_, ?_, ?_, ?_⟩
  · intro i h
    have hiN : i < (D + L - 1) / L := by simpa using h
    rw [List.getElem_map, List.getElem_range, splitE_seg D L i hL hiN]
  · intro i h
    have hsN : i + 1 < (D + L - 1) / L := by simpa using h
    have hiN : i < (D + L - 1) / L := Nat.lt_of_succ_lt hsN
    rw [List.getElem_map, List.getElem_range, List.getElem_map, List.getElem_range,
      splitE_seg D L i hL hiN, splitE_seg D L (i + 1) hL hsN]
    have := mul_lt_of_lt_ceil D L (i + 1) hL hsN
    simp only
    omega
  · intro i j hi hj hij
    have hiN : i < (D + L - 1) / L := by simpa using hi
    have hjN : j < (D + L - 1) / L := by simpa using hj
    rw [List.getElem_map, List.getElem_range, List.getElem_map, List.getElem_range,
      splitE_seg D L i hL hiN, splitE_seg D L j hL hjN]
    have h1 : (i + 1) * L ≤ j * L := Nat.mul_le_mul_right L hij
    simp only
    omega
  · intro x
    constructor
    · intro hx
      have hiN : x / L < (D + L - 1) / L := by
        by_contra h
        have h1 : (D + L - 1) / L ≤ x / L := by omega
        have h2 : ((D + L - 1) / L) * L ≤ (x / L) * L := Nat.mul_le_mul_right L h1
        have h3 : (x / L) * L ≤ x := Nat.div_mul_le_self x L
        have h4 := ceil_mul_ge D L hL
        omega
      refine ⟨x / L, by simpa using hiN, ?_⟩
      rw [List.getElem_map, List.getElem_range, splitE_seg D L (x / L) hL hiN]
      have h3 : (x / L) * L ≤ x := Nat.div_mul_le_self x L
      have h5 := Nat.div_add_mod x L
      have h6 : x % L < L := Nat.mod_lt _ hL
      have h7 : (x / L + 1) * L = L * (x / L) + L := by ring
      simp only
      omega
    · rintro ⟨i, h, h1, h2⟩
      have hiN : i < (D + L - 1) / L := by simpa using h
      rw [List.getElem_map, List.getElem_range, splitE_seg D L i hL hiN] at h1 h2
      simp only at h2
      omega
  · intro h
    have hNpos : 0 < (D + L - 1) / L := by
      have hlp : 0 < ((List.range ((D + L - 1) / L)).map (chunkSeg D (L : Int))).length :=
        List.length_pos.mpr h
      simpa using hlp
    rw [List.getLast_eq_getElem]
    simp only [List.length_map, List.length_range]
    have hN1 : (D + L - 1) / L - 1 < (D + L - 1) / L := by omega
    rw [List.getElem_map, List.getElem_range, splitE_seg D L ((D + L - 1) / L - 1) hL hN1]
    have hml := ceil_mul_ge D L hL
    have he : ((D + L - 1) / L - 1 + 1) * L = ((D + L - 1) / L) * L := by
      congr 1
      omega
    simp only [he]
    have hmin : min (((D + L - 1) / L) * L) D = D := by omega
    rw [hmin]

/-- A witness instantiating `chunking_correct` at `D = 25`, `L = 10`
(the spec's 25-minute / 10-minute example, in abstract units). -/
theorem chunking_correct_witness :
    0 < 10 ∧ ∃ segs : List (Nat × Nat),
      splitE 25 ((10 : Nat) : Int) = .ok segs ∧
      segs.length = (25 + 10 - 1) / 10 ∧
      (∀ i (h : i < segs.length), segs[i] = (i * 10, min ((i + 1) * 10) 25)) ∧
      (∀ i (h : i + 1 < segs.length),
        segs[i].2 = segs[i + 1].1) ∧
      (∀ i j (hi : i < segs.length) (hj : j < segs.length), i < j →
        segs[i].2 ≤ segs[j].1) ∧
      (∀ x, x < 25 ↔ ∃ i, ∃ h : i < segs.length,
        segs[i].1 ≤ x ∧ x < segs[i].2) ∧
      (∀ h : segs ≠ [],
        (segs.getLast h).2 - (segs.getLast h).1 = 25 - (segs.length - 1) * 10) :=
  ⟨by decide, chunking_correct 25 10 (by decide)⟩

/-- `fmod` of a natural by a negative divisor is non-positive. -/
lemma fmod_nonpos_of_negSucc (m n : Nat) : (Int.ofNat m).fmod (Int.negSucc n) ≤ 0 := by
  cases m with
  | zero => exact le_of_eq rfl
  | succ m =>
    show Int.subNatNat (m % n.succ) n ≤ 0
    rw [Int.subNatNat_eq_coe]
    have : m % n.succ ≤ n := by
      have := Nat.mod_lt m (Nat.succ_pos n)
      omega
    omega

/-- With a negative chunk length the chunk computation silently yields a
negative count, hence `range` produces no chunks at all. -/
lemma splitE_neg (D : Nat) (L : Int) (hL : L < 0) : splitE D L = .ok [] := by
  unfold splitE numChunksE
  rw [if_neg (by omega : ¬ L = 0)]
  dsimp only
  have h1 : (D : Int).fdiv L ≤ 0 := Int.fdiv_nonpos (by omega) (le_of_lt hL)
  have h2 : (D : Int).fmod L ≤ 0 := by
    cases L with
    | ofNat n => exact absurd hL (Int.not_lt.mpr (Int.ofNat_nonneg n))
    | negSucc n => exact fmod_nonpos_of_negSucc D n
  rw [if_neg (by omega : ¬ (0 : Int) < (D : Int).fmod L)]
  have h3 : ((D : Int).fdiv L + 0).toNat = 0 := by omega
  rw [h3]
  rfl

/-- **C4 counterexample**: the code never raises a `ConfigError` for a
non-positive chunk length.  At chunk length `-1` splitting does not fail
at all (it silently yields zero chunks), and at chunk length `0` it
fails with a `ZeroDivisionError` raised from the chunk-count division,
not with a config validation error. -/
theorem chunk_length_not_validated_cex :
    splitE 5 (-1 : Int) = .ok [] ∧ splitE 5 (0 : Int) = .error .zeroDivisionError := by
  constructor
  · rfl
  · rfl

/-- **C4 amended**: the chunk length is not validated anywhere.  A zero
chunk length raises `ZeroDivisionError` when `transcribe_file` computes
the number of chunks, and a negative chunk length raises nothing:
Python floor division yields a negative chunk count, `range` of which is
empty, so splitting silently produces zero chunks. -/
theorem chunk_length_not_validated (D : Nat) (L : Int) :
    (L = 0 → splitE D L = .error .zeroDivisionError) ∧
    (L < 0 → splitE D L = .ok []) := by
  constructor
  · intro h
    subst h
    unfold splitE numChunksE
    rw [if_pos rfl]
  · intro h
    exact splitE_neg D L h

/-- A witness instantiating `chunk_length_not_validated` at `D = 7` with
chunk lengths `0` and `-2`. -/
theorem chunk_length_not_validated_witness :
    splitE 7 (0 : Int) = .error .zeroDivisionError ∧ splitE 7 (-2 : Int) = .ok [] :=
  ⟨(chunk_length_not_validated 7 0).1 rfl,
   (chunk_length_not_validated 7 (-2)).2 (by decide)⟩

/-- If any index in the completion order has a failing outcome, the
collection loop re-raises (some) failure. -/
lemma collectLoop_error_of_mem (outcomes : Nat → Except Err String) (k : Nat) (e : Err)
    (hfail : outcomes k = .error e) :
    ∀ (order : List Nat) (acc : List (Nat × String)), k ∈ order →
      ∃ e2, collectLoop outcomes order acc = .error e2 := by
  intro order
  induction order with
  | nil =>
    intro acc h
    simp at h
  | cons i rest ih =>
    intro acc hmem
    cases houti : outcomes i with
    | error e2 => exact ⟨e2, by simp [collectLoop, houti]⟩
    | ok t =>
      have hk : k ∈ rest := by
        rcases List.mem_cons.mp hmem with rfl | h
        · rw [hfail] at houti
          cases houti
        · exact h
      obtain ⟨e2, h2⟩ := ih (acc ++ [(i, t)]) hk
      exact ⟨e2, by simp [collectLoop, houti, h2]⟩

/-- A successful collection loop gathers exactly the completion-order
indices (after the accumulated ones), in order. -/
lemma collectLoop_ok_map_fst (outcomes : Nat → Except Err String) :
    ∀ (order : List Nat) (acc ts : List (Nat × String)),
      collectLoop outcomes order acc = .ok ts →
      ts.map Prod.fst = acc.map Prod.fst ++ order := by
  intro order
  induction order with
  | nil =>
    intro acc ts h
    simp [collectLoop] at h
    subst h
    simp
  | cons i rest ih =>
    intro acc ts h
    cases houti : outcomes i with
    | error e2 => simp [collectLoop, houti] at h
    | ok t =>
      simp only [collectLoop, houti] at h
      have := ih (acc ++ [(i, t)]) ts h
      simpa using this

/-- **C2**: for every input and chunk index `k < N`, if chunk `k`'s
transcription fails then `transcribe_file` raises an error and writes no
output file, no matter how many other chunks succeeded or in what order
the futures complete. -/
theorem fail_fast_no_partial_output (inp : PipelineInput) (L : Int)
    (outcomes : Nat → Except Err String) (N : Nat) (order : List Nat)
    (horder : order.Perm (List.range N)) (k : Nat) (hk : k < N) (e : Err)
    (hfail : outcomes k = .error e) :
    (∃ e2, (transcribe_file inp L outcomes order).result = .error e2) ∧
    (transcribe_file inp L outcomes order).outputContent = none := by
  have hkmem : k ∈ order := horder.mem_iff.mpr (List.mem_range.mpr hk)
  obtain ⟨e2, hcol⟩ := collectLoop_error_of_mem outcomes k e hfail order [] hkmem
  unfold transcribe_file
  cases hv : validate_audio_file inp.pathExists inp.ext with
  | error e3 => exact ⟨⟨e3, rfl⟩, rfl⟩
  | ok b =>
    cases hd : inp.decodeOk with
    | false => exact ⟨⟨.decodeError, rfl⟩, rfl⟩
    | true =>
      rw [if_neg (by simp)]
      cases hs : splitE inp.durationMs L with
      | error e4 => exact ⟨⟨e4, rfl⟩, rfl⟩
      | ok chunks =>
        rw [hcol]
        exact ⟨⟨e2, rfl⟩, rfl⟩

/-- A witness instantiating `fail_fast_no_partial_output` on a valid
3-chunk run where chunk 1 fails and the others succeed, with completion
order `[2, 0, 1]`. -/
theorem fail_fast_no_partial_output_witness :
    (∃ e2, (transcribe_file ⟨true, ".mp3", "clip", true, 25⟩ 10
      (fun i => if i = 1 then .error .exportError else .ok "t") [2, 0, 1]).result
        = .error e2) ∧
    (transcribe_file ⟨true, ".mp3", "clip", true, 25⟩ 10
      (fun i => if i = 1 then .error .exportError else .ok "t") [2, 0, 1]).outputContent
        = none :=
  fail_fast_no_partial_output ⟨true, ".mp3", "clip", true, 25⟩ 10
    (fun i => if i = 1 then .error .exportError else .ok "t") 3 [2, 0, 1]
    (by decide) 1 (by decide) .exportError (by rfl)

/-- **C3 counterexample**: the code performs no completeness check and
has no `IncompleteResultError`.  Handing the reassembly step a results
collection with a gap (index 1 missing out of `[0, 3)`) produces a
transcript rather than any failure. -/
theorem reassembly_no_completeness_check_cex :
    reassemble [(0, "A"), (2, "C")] = "A\nC" := by
  rfl

/-- **C3 amended**: the reassembly step performs no completeness check —
it is a total function that sorts whatever results are present and joins
them (see the counterexample).  Incomplete collections nonetheless never
reach it inside `transcribe_file`: whenever the fail-fast collection
loop finishes without raising, the collected results carry exactly one
entry per submitted chunk index, i.e. a permutation of `[0, N)`. -/
theorem reassembly_reached_only_complete (outcomes : Nat → Except Err String)
    (N : Nat) (order : List Nat) (horder : order.Perm (List.range N))
    (ts : List (Nat × String)) (hok : collectLoop outcomes order [] = .ok ts) :
    (ts.map Prod.fst).Perm (List.range N) := by
  have h := collectLoop_ok_map_fst outcomes order [] ts hok
  simp at h
  rw [h]
  exact horder

/-- A witness instantiating `reassembly_reached_only_complete` on a
2-chunk run completing out of order. -/
theorem reassembly_reached_only_complete_witness :
    (([(1, "t"), (0, "t")] : List (Nat × String)).map Prod.fst).Perm (List.range 2) :=
  reassembly_reached_only_complete (fun _ => .ok "t") 2 [1, 0] (by decide)
    [(1, "t"), (0, "t")] (by rfl)

/-- **C5**: for every complete results collection — any permutation of
one entry `(i, f i)` per index `i < N` — reassembly sorts by index
ascending and joins with single newlines (no trailing separator), so
every arrival order yields the identical string; in particular `N = 0`
yields the empty string (second conjunct). -/
theorem reassemble_complete (N : Nat) (f : Nat → String) (ts : List (Nat × String))
    (hc : ts.Perm ((List.range N).map fun i => (i, f i))) :
    reassemble ts = String.intercalate "\n" ((List.range N).map f) ∧
    reassemble ([] : List (Nat × String)) = "" := by
  refine ⟨?_, rfl⟩
  haveI hTot : IsTotal (Nat × String) (fun a b => a.1 ≤ b.1) :=
    ⟨fun a b => Nat.le_total a.1 b.1⟩
  haveI hTrans : IsTrans (Nat × String) (fun a b => a.1 ≤ b.1) :=
    ⟨fun a b c hab hbc => Nat.le_trans hab hbc⟩
  haveI hAnti : IsAntisymm (Nat × String) (fun a b => a.1 < b.1) :=
    ⟨fun a b h1 h2 => absurd h2 (Nat.lt_asymm h1)⟩
  have hfstcomp : (Prod.fst ∘ fun i => ((i, f i) : Nat × String)) = id := rfl
  have hcanon : ((List.range N).map fun i => (i, f i)).Pairwise
      (fun a b : Nat × String => a.1 < b.1) := by
    rw [List.pairwise_map]
    exact List.pairwise_lt_range N
  have hsorted : (sortByIndex ts).Pairwise (fun a b : Nat × String => a.1 ≤ b.1) :=
    List.sorted_insertionSort _ ts
  have hperm : (sortByIndex ts).Perm ((List.range N).map fun i => (i, f i)) :=
    (List.perm_insertionSort _ ts).trans hc
  have hnodup : ((sortByIndex ts).map Prod.fst).Nodup := by
    have hmapeq : ((List.range N).map fun i => ((i, f i) : Nat × String)).map Prod.fst
        = List.range N := by
      rw [List.map_map, hfstcomp, List.map_id]
    have hpm : ((sortByIndex ts).map Prod.fst).Perm (List.range N) := by
      rw [← hmapeq]
      exact hperm.map Prod.fst
    exact hpm.nodup_iff.mpr (List.nodup_range N)
  have hne : (sortByIndex ts).Pairwise (fun a b : Nat × String => a.1 ≠ b.1) :=
    List.pairwise_map.mp hnodup
  have hstrict : (sortByIndex ts).Pairwise (fun a b : Nat × String => a.1 < b.1) :=
    (hsorted.and hne).imp fun h => Nat.lt_of_le_of_ne h.1 h.2
  have heq : sortByIndex ts = (List.range N).map fun i => (i, f i) :=
    List.eq_of_perm_of_sorted hperm hstrict hcanon
  unfold reassemble
  rw [heq, List.map_map]
  have hsndcomp : (Prod.snd ∘ fun i => ((i, f i) : Nat × String)) = f := rfl
  rw [hsndcomp]

/-- A witness instantiating `reassemble_complete` on three chunks whose
results arrived in the order 2, 0, 1. -/
theorem reassemble_complete_witness :
    reassemble [(2, "C"), (0, "A"), (1, "B")] =
      String.intercalate "\n" ((List.range 3).map fun i =>
        if i = 0 then "A" else if i = 1 then "B" else "C") ∧
    reassemble ([] : List (Nat × String)) = "" :=
  reassemble_complete 3 (fun i => if i = 0 then "A" else if i = 1 then "B" else "C")
    [(2, "C"), (0, "A"), (1, "B")] (by decide)

/-- **C6**: a missing input path fails with the file-not-found error and
an unsupported extension (compared via `.lower()`) fails with the
unsupported-format error, in that order, both before any decode attempt
and before any transcription call is submitted. -/
theorem validation_before_decode (inp : PipelineInput) (L : Int)
    (outcomes : Nat → Except Err String) (order : List Nat) :
    (inp.pathExists = false →
      transcribe_file inp L outcomes order = ⟨.error .fileNotFound, false, 0, none⟩) ∧
    (inp.pathExists = true → supported_formats.contains (strLower inp.ext) = false →
      transcribe_file inp L outcomes order = ⟨.error .unsupportedFormat, false, 0, none⟩) := by
  constructor
  · intro h
    unfold transcribe_file validate_audio_file
    rw [h]
    rfl
  · intro h1 h2
    unfold transcribe_file validate_audio_file
    rw [h1, h2]
    rfl

/-- A witness instantiating `validation_before_decode`: a missing file,
and the spec's `clip.xyz` unsupported-extension scenario. -/
theorem validation_before_decode_witness :
    transcribe_file ⟨false, ".mp3", "a", true, 0⟩ 600000 (fun _ => .ok "t") []
      = ⟨.error .fileNotFound, false, 0, none⟩ ∧
    transcribe_file ⟨true, ".xyz", "clip", true, 5⟩ 600000 (fun _ => .ok "t") []
      = ⟨.error .unsupportedFormat, false, 0, none⟩ :=
  ⟨(validation_before_decode ⟨false, ".mp3", "a", true, 0⟩ 600000 (fun _ => .ok "t") []).1
      rfl,
   (validation_before_decode ⟨true, ".xyz", "clip", true, 5⟩ 600000 (fun _ => .ok "t") []).2
      rfl (by rfl)⟩

/-- **C7**: whatever the export and transcription outcomes (success,
export failure, or service failure), `process_chunk`'s `finally` block
removes the temporary file, so it no longer exists when the call exits.
(The `unlink` call itself succeeding is the OS-level deletion; its own
failure mode is the subject of C8.) -/
theorem temp_file_cleanup (exportRes : Except Err Unit) (createdOnFail : Bool)
    (serviceRes : Except Err String) :
    (process_chunk exportRes createdOnFail serviceRes (.ok ())).2 = false := by
  unfold process_chunk
  cases exportRes with
  | error e => cases createdOnFail <;> rfl
  | ok u => rfl

/-- **C8 counterexample**: contrary to the claim, a failing cleanup does
mask the original error.  With the transcription call failing with a
service error and the `finally`-block `unlink` also failing, the
propagated error is the cleanup error, not the original one — Python's
`finally` semantics replace the in-flight exception. -/
theorem cleanup_error_masks_cex :
    process_chunk (.ok ()) false (.error (.serviceError "network")) (.error .cleanupError)
      = (.error .cleanupError, true) ∧
    Err.cleanupError ≠ Err.serviceError "network" :=
  ⟨rfl, by decide⟩

/-- **C8 amended**: the cleanup in `process_chunk` runs with no
protection of the in-flight error.  When the temp file exists and the
`unlink` in the `finally` block raises, the cleanup error is what
propagates, replacing any original error; the original error is the one
propagated only when cleanup succeeds. -/
theorem cleanup_error_precedence (serviceRes : Except Err String) (ce e : Err) :
    (process_chunk (.ok ()) false serviceRes (.error ce)).1 = .error ce ∧
    (process_chunk (.ok ()) false (.error e) (.ok ())).1 = .error e :=
  ⟨rfl, rfl⟩

/-- **C10**: on a valid input whose decoded duration is 0 ms (with any
positive chunk length), `transcribe_file` submits no transcription
calls, still writes the output file containing the empty string, and
returns the output path. -/
theorem empty_input_writes_empty_output (inp : PipelineInput) (L : Nat) (hL : 0 < L)
    (outcomes : Nat → Except Err String)
    (hpath : inp.pathExists = true)
    (hext : supported_formats.contains (strLower inp.ext) = true)
    (hdec : inp.decodeOk = true) (hdur : inp.durationMs = 0) :
    transcribe_file inp (L : Int) outcomes [] =
      ⟨.ok (inp.stem ++ ".txt"), true, 0, some ""⟩ := by
  have hsplit : splitE 0 (L : Int) = .ok [] := by
    have h := splitE_pos 0 L hL
    rw [Nat.div_eq_of_lt (by omega : 0 + L - 1 < L)] at h
    simpa using h
  unfold transcribe_file validate_audio_file
  rw [hpath, hext, hdec, hdur, hsplit]
  rfl

/-- A witness instantiating `empty_input_writes_empty_output` on a
0 ms `.wav` input with the default 10-minute chunk length. -/
theorem empty_input_writes_empty_output_witness :
    transcribe_file ⟨true, ".wav", "empty", true, 0⟩ ((600000 : Nat) : Int)
        (fun _ => .ok "t") [] = ⟨.ok ("empty" ++ ".txt"), true, 0, some ""⟩ :=
  empty_input_writes_empty_output ⟨true, ".wav", "empty", true, 0⟩ 600000 (by decide)
    (fun _ => .ok "t") rfl (by rfl) rfl rfl
